import Mathlib

/-!
Verification of the batching, ordering, dispatch and supervision engine of
pytest-mp (src/pytest_mp/plugin.py), via a shallow embedding.

Modelling conventions:
* a test item is modelled by its name together with the already-parsed
  optional mp_group annotation (group name, strategy), i.e. the result of
  get_item_batch_name_and_strategy;
* Python dicts are modelled as insertion-ordered association lists (the
  batch map) or as plain functions (the trail message board, where order
  is irrelevant);
* Python raise is modelled with Except.error carrying the message;
* Python truthiness of strings (the expression
  batches.get(group_name, {}).get('strategy') or 'free') is modelled
  explicitly: the empty string is falsy;
* execution (pytest_runtest_protocol calls, process spawns) is modelled as
  a trace of events, since the runner itself is an external collaborator.
-/

namespace PytestMp

/-- A work item: name plus parsed mp_group annotation. -/
structure Item where
  name : String
  group : Option String
  strategy : Option String
deriving DecidableEq, Repr

/-- One entry of the batches dict: dict(strategy=..., tests=[...]).
In the source an entry always receives its strategy key before anything
else is stored, so the strategy field is total here. -/
structure BatchData where
  strategy : String
  tests : List Item
deriving DecidableEq, Repr

/-- The batches mapping, insertion ordered as a Python dict. -/
abbrev Batches := List (String × BatchData)

/-- Dict lookup: batches.get(g). -/
def lookupBatch : Batches → String → Option BatchData
  | [], _ => none
  | (g1, bd) :: rest, g => if g1 = g then some bd else lookupBatch rest g

/-- Dict write batches[g]['strategy'] = s; on a defaultdict this creates
the entry (with no tests yet) when absent. -/
def setStrategy : Batches → String → String → Batches
  | [], g, s => [(g, ⟨s, []⟩)]
  | (g1, bd) :: rest, g, s =>
      if g1 = g then (g1, ⟨s, bd.tests⟩) :: rest
      else (g1, bd) :: setStrategy rest g s

/-- Dict write batches[g]['tests'].append(it); only ever invoked when the
entry exists, so the nil case is unreachable in runs of batch_tests. -/
def appendTest : Batches → String → Item → Batches
  | [], _, _ => []
  | (g1, bd) :: rest, g, it =>
      if g1 = g then (g1, ⟨bd.strategy, bd.tests ++ [it]⟩) :: rest
      else (g1, bd) :: appendTest rest g it

/-- State threaded through batch_tests: the batches dict plus the stamps
(item.add_marker(pytest.mark.mp_group_info.with_args(group=..., strategy=...)))
issued so far, in discovery order. -/
structure BState where
  batches : Batches
  stamped : List (Item × String × String)
deriving DecidableEq, Repr

/-- The message of the strategy-conflict exception in batch_tests. -/
def conflictMsg (g s : String) : String :=
  g ++ " already has specified strategy " ++ s ++ "."

/-- Python expression x or 'free' applied to an optional strategy string:
None and the empty string are falsy. -/
def inheritOf : Option String → String
  | none => "free"
  | some s => if s = "" then "free" else s

/-- One iteration of the loop body of batch_tests (plugin.py lines 141-160). -/
def processItem (st : BState) (it : Item) : Except String BState :=
  match it.group with
  | none =>
      let bs := if (lookupBatch st.batches "ungrouped").isSome then st.batches
                else st.batches ++ [("ungrouped", ⟨"free", []⟩)]
      .ok ⟨appendTest bs "ungrouped" it, st.stamped ++ [(it, "ungrouped", "free")]⟩
  | some g =>
      match it.strategy with
      | none =>
          let gs := inheritOf ((lookupBatch st.batches g).map BatchData.strategy)
          .ok ⟨appendTest (setStrategy st.batches g gs) g it,
               st.stamped ++ [(it, g, gs)]⟩
      | some s =>
          match lookupBatch st.batches g with
          | some bd =>
              if bd.strategy ≠ s then .error (conflictMsg g bd.strategy)
              else .ok ⟨appendTest (setStrategy st.batches g s) g it,
                        st.stamped ++ [(it, g, s)]⟩
          | none =>
              .ok ⟨appendTest (setStrategy st.batches g s) g it,
                   st.stamped ++ [(it, g, s)]⟩

/-- The item loop of batch_tests. -/
def batchLoop : BState → List Item → Except String BState
  | st, [] => .ok st
  | st, it :: rest =>
      match processItem st it with
      | .error e => .error e
      | .ok st1 => batchLoop st1 rest

/-- batch_tests (plugin.py lines 138-169): classify session items into the
batches dict, stamping each item with its resolved group and strategy. -/
def batch_tests (items : List Item) : Except String BState :=
  batchLoop ⟨[], []⟩ items

/-! ### Specification helpers for the classifier -/

/-- The batch name an item resolves to: its group annotation, or the
implicit "ungrouped" batch. -/
def resolvedGroup (it : Item) : String :=
  match it.group with
  | none => "ungrouped"
  | some g => g

/-- How processing one item transforms the strategy recorded in the batches
dict for the fixed batch name g (none = entry absent). -/
def stepStrat (g : String) (cur : Option String) (it : Item) : Option String :=
  match it.group with
  | none => if g = "ungrouped" then some (cur.getD "free") else cur
  | some g1 =>
      if g1 = g then
        match it.strategy with
        | none => some (inheritOf cur)
        | some s => some s
      else cur

/-- The strategy recorded for batch name g after an error-free run of
batch_tests over items. -/
def recordedStrat (items : List Item) (g : String) : Option String :=
  items.foldl (stepStrat g) none

/-- Batch names in order of first occurrence of their items (dict insertion
order). -/
def groupOrder (items : List Item) : List String :=
  items.foldl
    (fun acc it => if resolvedGroup it ∈ acc then acc else acc ++ [resolvedGroup it]) []

/-- The strategy an item is stamped with, given the items already processed. -/
def stampStrat (pre : List Item) (it : Item) : String :=
  match it.group with
  | none => "free"
  | some g =>
      match it.strategy with
      | none => inheritOf (recordedStrat pre g)
      | some s => s

/-- The stamps issued for a list of items processed after the prefix pre. -/
def stampedFrom (pre : List Item) : List Item → List (Item × String × String)
  | [] => []
  | it :: rest => (it, resolvedGroup it, stampStrat pre it) :: stampedFrom (pre ++ [it]) rest

/-! ### Strategy orderer and dispatch engine (run_batched_tests) -/

/-- An observable action of the dispatch engine: a sequential in-process
pytest_runtest_protocol call with its nextitem argument, or a process
submission (submit_test_to_process / submit_batch_to_process). -/
inductive Event where
  | runTest (test : Item) (next : Option Item)
  | submitTest (test : Item)
  | submitBatch (tests : List Item)
deriving DecidableEq, Repr

/-- Whether an event is an in-process protocol call (no worker spawned). -/
def isRunEvent : Event → Bool
  | .runTest _ _ => true
  | _ => false

/-- The items executed by a trace, in order. -/
def runItems (evs : List Event) : List Item :=
  evs.filterMap fun e =>
    match e with
    | .runTest t _ => some t
    | _ => none

/-- run_isolated_serial_batch (plugin.py lines 178-184): run the tests of a
batch in order; next_test is first computed as the following test of the
batch, then unconditionally replaced by final_test whenever final_test is
truthy (the expression final_test or next_test). -/
def run_isolated_serial_batch : List Item → Option Item → List Event
  | [], _ => []
  | t :: rest, final_test =>
      let next1 := rest.head?
      let next2 := match final_test with
        | some x => some x
        | none => next1
      .runTest t next2 :: run_isolated_serial_batch rest final_test

/-- Dict read batches[g]; in run_batched_tests g is always a key. -/
def getBatch (bs : Batches) (g : String) : BatchData :=
  (lookupBatch bs g).getD ⟨"", []⟩

/-- The sequential path of run_batched_tests (num_processes falsy, lines
217-221): each batch is run in-process, passing the first test of the next
batch in plan order as final_test. -/
def runSequentialBatches (bs : Batches) : List String → List Event
  | [] => []
  | b :: rest =>
      let next_test := match rest with
        | [] => none
        | b2 :: _ => (getBatch bs b2).tests.head?
      run_isolated_serial_batch (getBatch bs b).tests next_test
        ++ runSequentialBatches bs rest

/-- The sorting dict of run_batched_tests line 213 with its .get default:
sorting = dict(free=0, serial=0, isolated_free=1, isolated_serial=2),
sorting.get(strategy, 3). -/
def strategyPriority (s : String) : Nat :=
  if s = "free" then 0
  else if s = "serial" then 0
  else if s = "isolated_free" then 1
  else if s = "isolated_serial" then 2
  else 3

/-- The sort key of line 215: sorting.get(batches[x]['strategy'], 3). -/
def prioOf (bs : Batches) (name : String) : Nat :=
  strategyPriority (getBatch bs name).strategy

/-- Stable insertion of x into an already sorted accumulator: x goes
after every element whose key is ≤ its own, so elements with equal keys
keep their insertion order. -/
def insertStable (key : String → Nat) (x : String) : List String → List String
  | [] => [x]
  | y :: ys => if key y ≤ key x then y :: insertStable key x ys else x :: y :: ys

/-- A stable sort by key, inserting the elements left to right. -/
def stableSortBy (key : String → Nat) (l : List String) : List String :=
  l.foldl (fun acc x => insertStable key x acc) []

/-- sorted(batches.keys(), key=...) of line 215. Python's sorted is a
stable sort by the key function; it is embedded as a stable insertion
sort under the same key (any two stable sorts agree extensionally). -/
def sortedBatchNames (bs : Batches) : List String :=
  stableSortBy (prioOf bs) (bs.map Prod.fst)

/-- The dispatch loop of run_batched_tests (lines 223-248) as a trace:
events emitted before the loop finishes or raises, paired with the raised
message if any. Signal waits (proc_signal, processes_empty) block but emit
no observable action, so they do not appear in the trace. -/
def dispatchBatches (bs : Batches) : List String → List Event × Option String
  | [] => ([], none)
  | b :: rest =>
      let bd := getBatch bs b
      if bd.strategy = "free" then
        let r := dispatchBatches bs rest
        (bd.tests.map Event.submitTest ++ r.1, r.2)
      else if bd.strategy = "serial" then
        let r := dispatchBatches bs rest
        (Event.submitBatch bd.tests :: r.1, r.2)
      else if bd.strategy = "isolated_free" then
        let r := dispatchBatches bs rest
        (bd.tests.map Event.submitTest ++ r.1, r.2)
      else if bd.strategy = "isolated_serial" then
        let r := dispatchBatches bs rest
        (Event.submitBatch bd.tests :: r.1, r.2)
      else
        ([], some ("Unknown strategy " ++ bd.strategy))

/-- run_batched_tests (plugin.py lines 211-250) as a trace. -/
def run_batched_tests (bs : Batches) (num_processes : Nat) : List Event × Option String :=
  let names := sortedBatchNames bs
  if num_processes = 0 then (runSequentialBatches bs names, none)
  else dispatchBatches bs names

/-! ### Trail coordination (mp_trail, plugin.py lines 52-78) -/

/-- The shared fixture message board: resource key to active-consumer
count. Dict order is irrelevant here, so a plain function models it. -/
abbrev Board := String → Option Int

/-- The key used by mp_trail for a resource name. -/
def consumerKey (name : String) : String := name ++ "__consumers__"

/-- Dict write board[k] = v. -/
def setBoard (b : Board) (k : String) (v : Int) : Board :=
  fun k1 => if k1 = k then some v else b k1

/-- Dict delete del board[k]. -/
def delBoard (b : Board) (k : String) : Board :=
  fun k1 => if k1 = k then none else b k1

/-- One call of the trail context manager (plugin.py lines 57-76), the
body being serialized by the fixture lock: returns the updated board and
the yielded report (True = you are the first / you are the last). -/
def mp_trail (board : Board) (name state : String) : Except String (Board × Bool) :=
  if state ≠ "start" ∧ state ≠ "finish" then
    .error ("mp_trail state must be \"start\" or \"finish\": " ++ state)
  else
    let key := consumerKey name
    if state = "start" then
      match board key with
      | none => .ok (setBoard board key 1, true)
      | some v => .ok (setBoard board key (v + 1), false)
    else
      match board key with
      | none => .error ("KeyError: " ++ key)
      | some v =>
          let v1 := v - 1
          if v1 ≠ 0 then .ok (setBoard board key v1, false)
          else .ok (delBoard (setBoard board key v1) key, true)

/-- Run a sequence of (name, state) trail calls, collecting the reports. -/
def trailRun (b : Board) : List (String × String) → Except String (Board × List Bool)
  | [] => .ok (b, [])
  | (n, st) :: rest =>
      match mp_trail b n st with
      | .error e => .error e
      | .ok (b1, r) =>
          match trailRun b1 rest with
          | .error e => .error e
          | .ok (b2, rs) => .ok (b2, r :: rs)

/-! ### Failure aggregation (pytest_runtest_logreport, lines 316-322) -/

/-- An observed test report: outcome and phase. -/
structure Report where
  failed : Bool
  phase : String
deriving DecidableEq, Repr

/-- The locked update of synchronization['stats']['failed'] performed by
pytest_runtest_logreport for one report (the 'stats' key being present). -/
def pytest_runtest_logreport (flag : Bool) (r : Report) : Bool :=
  if r.failed && !flag then
    if r.phase == "call" then true else flag
  else flag

/-- The failed flag at the end of a run: initialized False (line 293),
folded over all observed reports. -/
def observeReports (rs : List Report) : Bool :=
  rs.foldl pytest_runtest_logreport false

/-- End-of-run folding (lines 310-311): session.testsfailed is set when the
shared flag is true, otherwise left as is. -/
def sessionTestsfailed (testsfailed : Bool) (flag : Bool) : Bool :=
  if flag then true else testsfailed

/-! ### Worker pool supervisor (process_loop, plugin.py lines 253-276) -/

/-- The shared state read and written by one tick of process_loop. -/
structure LoopState where
  processes : List Nat
  processes_empty : Bool
  proc_signal : Bool
  reap_loop : Bool
deriving DecidableEq, Repr

/-- One iteration of the while loop of process_loop. reapable pid holds
when psutil reports status stopped/zombie or raises NoSuchProcess. The
Bool result is whether the loop returns (terminates) on this tick. -/
def process_loop_tick (reapable : Nat → Bool) (num_processes : Nat)
    (s : LoopState) : LoopState × Bool :=
  let pid_list := s.processes
  let empt := if pid_list.isEmpty then true
              else if s.processes_empty then false
              else s.processes_empty
  let procs := pid_list.filter fun pid => !reapable pid
  if s.reap_loop && procs.isEmpty then
    (⟨procs, empt, s.proc_signal, s.reap_loop⟩, true)
  else
    let sig := if procs.length < num_processes && !s.proc_signal then true
               else s.proc_signal
    (⟨procs, empt, sig, s.reap_loop⟩, false)

/-! ### Lemmas about the stable sort -/

/-- All names of a bucket, i.e. with a fixed sort key, in original order. -/
def bucket (key : String → Nat) (i : Nat) (l : List String) : List String :=
  l.filter fun x => decide (key x = i)

theorem mem_bucket {key : String → Nat} {i : Nat} {l : List String} {y : String}
    (h : y ∈ bucket key i l) : key y = i := by
  simp only [bucket, List.mem_filter, decide_eq_true_eq] at h
  exact h.2

theorem insertStable_skip (key : String → Nat) (x : String) (A B : List String)
    (hA : ∀ y ∈ A, key y ≤ key x) :
    insertStable key x (A ++ B) = A ++ insertStable key x B := by
  induction A with
  | nil => simp
  | cons a as ih =>
      simp only [List.cons_append, insertStable]
      rw [if_pos (hA a (by simp))]
      exact congrArg (a :: ·) (ih fun y hy => hA y (by simp [hy]))

theorem insertStable_stop (key : String → Nat) (x : String) (B : List String)
    (hB : ∀ y ∈ B, ¬ key y ≤ key x) :
    insertStable key x B = x :: B := by
  cases B with
  | nil => rfl
  | cons b bs =>
      simp only [insertStable]
      rw [if_neg (hB b (by simp))]

theorem insertStable_perm (key : String → Nat) (x : String) (l : List String) :
    (insertStable key x l).Perm (x :: l) := by
  induction l with
  | nil => exact List.Perm.refl _
  | cons y ys ih =>
      simp only [insertStable]
      split
      · exact (ih.cons y).trans (List.Perm.swap x y ys)
      · exact List.Perm.refl _

theorem stableSortBy_perm (key : String → Nat) (l : List String) :
    (stableSortBy key l).Perm l := by
  induction l using List.reverseRecOn with
  | nil => exact List.Perm.refl _
  | append_singleton as a ih =>
      have h1 : stableSortBy key (as ++ [a]) = insertStable key a (stableSortBy key as) := by
        simp [stableSortBy, List.foldl_append]
      rw [h1]
      refine (insertStable_perm key a _).trans ((ih.cons a).trans ?_)
      have h2 : (as ++ [a]).Perm (a :: as) := by simpa using List.perm_middle
      exact h2.symm

theorem stableSortBy_buckets (key : String → Nat) (hk : ∀ x, key x ≤ 3)
    (l : List String) :
    stableSortBy key l
      = bucket key 0 l ++ bucket key 1 l ++ bucket key 2 l ++ bucket key 3 l := by
  induction l using List.reverseRecOn with
  | nil => rfl
  | append_singleton as a ih =>
      have h1 : stableSortBy key (as ++ [a]) = insertStable key a (stableSortBy key as) := by
        simp [stableSortBy, List.foldl_append]
      rw [h1, ih]
      have h4 : key a = 0 ∨ key a = 1 ∨ key a = 2 ∨ key a = 3 := by
        have := hk a; omega
      rcases h4 with h | h | h | h
      · rw [List.append_assoc, List.append_assoc,
            insertStable_skip key a _ _
              (fun y hy => by have h1 := mem_bucket hy; omega),
            insertStable_stop key a _ (by
              intro y hy
              rcases List.mem_append.mp hy with hy1 | hy2
              · have h1 := mem_bucket hy1; omega
              rcases List.mem_append.mp hy2 with hy3 | hy4
              · have h1 := mem_bucket hy3; omega
              · have h1 := mem_bucket hy4; omega)]
        simp [bucket, List.filter_append, h]
      · rw [List.append_assoc, List.append_assoc,
            insertStable_skip key a _ _
              (fun y hy => by have h1 := mem_bucket hy; omega),
            insertStable_skip key a _ _
              (fun y hy => by have h1 := mem_bucket hy; omega),
            insertStable_stop key a _ (by
              intro y hy
              rcases List.mem_append.mp hy with hy1 | hy2
              · have h1 := mem_bucket hy1; omega
              · have h1 := mem_bucket hy2; omega)]
        simp [bucket, List.filter_append, h]
      · rw [List.append_assoc, List.append_assoc,
            insertStable_skip key a _ _
              (fun y hy => by have h1 := mem_bucket hy; omega),
            insertStable_skip key a _ _
              (fun y hy => by have h1 := mem_bucket hy; omega),
            insertStable_skip key a _ _
              (fun y hy => by have h1 := mem_bucket hy; omega),
            insertStable_stop key a _ (by
              intro y hy
              have h1 := mem_bucket hy; omega)]
        simp [bucket, List.filter_append, h]
      · have hlast : insertStable key a (bucket key 3 as)
            = bucket key 3 as ++ [a] := by
          have hskip := insertStable_skip key a (bucket key 3 as) []
            (fun y hy => by have h1 := mem_bucket hy; omega)
          simpa [insertStable] using hskip
        rw [List.append_assoc, List.append_assoc,
            insertStable_skip key a _ _
              (fun y hy => by have h1 := mem_bucket hy; omega),
            insertStable_skip key a _ _
              (fun y hy => by have h1 := mem_bucket hy; omega),
            insertStable_skip key a _ _
              (fun y hy => by have h1 := mem_bucket hy; omega),
            hlast]
        simp [bucket, List.filter_append, h]

theorem strategyPriority_le_three (s : String) : strategyPriority s ≤ 3 := by
  unfold strategyPriority
  split_ifs <;> omega

/-! ### Lemmas for the sequential and dispatch paths -/

theorem runItems_serial (ts : List Item) (ft : Option Item) :
    runItems (run_isolated_serial_batch ts ft) = ts := by
  induction ts with
  | nil => rfl
  | cons t rest ih => simp [run_isolated_serial_batch, runItems] at ih ⊢; exact ih

theorem allRun_serial (ts : List Item) (ft : Option Item) :
    (run_isolated_serial_batch ts ft).all isRunEvent = true := by
  induction ts with
  | nil => rfl
  | cons t rest ih => simp [run_isolated_serial_batch, isRunEvent] at ih ⊢; exact ih

theorem runSequentialBatches_all (bs : Batches) (names : List String) :
    (runSequentialBatches bs names).all isRunEvent = true := by
  induction names with
  | nil => rfl
  | cons b rest ih =>
      simp only [runSequentialBatches, List.all_append]
      rw [allRun_serial, ih]
      rfl

theorem runSequentialBatches_items (bs : Batches) (names : List String) :
    runItems (runSequentialBatches bs names)
      = (names.map fun b => (getBatch bs b).tests).flatten := by
  induction names with
  | nil => rfl
  | cons b rest ih =>
      simp only [runSequentialBatches, runItems, List.filterMap_append,
        List.map_cons, List.flatten_cons]
      rw [show (run_isolated_serial_batch (getBatch bs b).tests _).filterMap _
            = runItems (run_isolated_serial_batch (getBatch bs b).tests _) from rfl,
          runItems_serial]
      exact congrArg _ ih

theorem dispatch_unknown (bs : Batches) : ∀ names : List String,
    (∃ n ∈ names, strategyPriority (getBatch bs n).strategy = 3) →
    ∃ s, (dispatchBatches bs names).2 = some ("Unknown strategy " ++ s)
          ∧ strategyPriority s = 3 := by
  intro names
  induction names with
  | nil => rintro ⟨n, hn, _⟩; simp at hn
  | cons b rest ih =>
      rintro ⟨n, hn, h3⟩
      by_cases hf : (getBatch bs b).strategy = "free"
      · have hrest : n ∈ rest := by
          rcases List.mem_cons.mp hn with h | h
          · subst h; simp [strategyPriority, hf] at h3
          · exact h
        obtain ⟨s, hs1, hs2⟩ := ih ⟨n, hrest, h3⟩
        exact ⟨s, by simp [dispatchBatches, hf, hs1], hs2⟩
      by_cases hse : (getBatch bs b).strategy = "serial"
      · have hrest : n ∈ rest := by
          rcases List.mem_cons.mp hn with h | h
          · subst h; simp [strategyPriority, hf, hse] at h3
          · exact h
        obtain ⟨s, hs1, hs2⟩ := ih ⟨n, hrest, h3⟩
        exact ⟨s, by simp [dispatchBatches, hf, hse, hs1], hs2⟩
      by_cases hif : (getBatch bs b).strategy = "isolated_free"
      · have hrest : n ∈ rest := by
          rcases List.mem_cons.mp hn with h | h
          · subst h; simp [strategyPriority, hf, hse, hif] at h3
          · exact h
        obtain ⟨s, hs1, hs2⟩ := ih ⟨n, hrest, h3⟩
        exact ⟨s, by simp [dispatchBatches, hf, hse, hif, hs1], hs2⟩
      by_cases his : (getBatch bs b).strategy = "isolated_serial"
      · have hrest : n ∈ rest := by
          rcases List.mem_cons.mp hn with h | h
          · subst h; simp [strategyPriority, hf, hse, hif, his] at h3
          · exact h
        obtain ⟨s, hs1, hs2⟩ := ih ⟨n, hrest, h3⟩
        exact ⟨s, by simp [dispatchBatches, hf, hse, hif, his, hs1], hs2⟩
      · refine ⟨(getBatch bs b).strategy, ?_, ?_⟩
        · simp [dispatchBatches, hf, hse, hif, his]
        · simp [strategyPriority, hf, hse, hif, his]

theorem lookup_of_mem_nodup {bs : Batches} {g : String} {bd : BatchData}
    (hmem : (g, bd) ∈ bs) (hnd : (bs.map Prod.fst).Nodup) :
    lookupBatch bs g = some bd := by
  induction bs with
  | nil => simp at hmem
  | cons p rest ih =>
      obtain ⟨g1, bd1⟩ := p
      simp only [List.map_cons, List.nodup_cons] at hnd
      rcases List.mem_cons.mp hmem with h | h
      · cases h
        simp [lookupBatch]
      · have hne : g1 ≠ g := by
          intro he
          subst he
          exact hnd.1 (List.mem_map.mpr ⟨(g1, bd), h, rfl⟩)
        simp [lookupBatch, hne, ih h hnd.2]

/-- Whether a dispatch outcome is the unknown-strategy configuration
error, naming the offending strategy. -/
def unknownStrategyError (o : Option String) : Prop :=
  ∃ s, o = some ("Unknown strategy " ++ s) ∧ strategyPriority s = 3

/-! ### Concrete items and batch maps used as test inputs -/

/-- A groupless item. -/
def itemA : Item := ⟨"A", none, none⟩

/-- An item declaring group g with explicit strategy serial. -/
def itemB : Item := ⟨"B", some "g", some "serial"⟩

/-- An item declaring group g with no explicit strategy. -/
def itemC : Item := ⟨"C", some "g", none⟩

/-- An item declaring group g with the explicit (falsy) empty strategy. -/
def itemT1 : Item := ⟨"t1", some "g", some ""⟩

/-- An item declaring group g with no explicit strategy. -/
def itemT2 : Item := ⟨"t2", some "g", none⟩

/-- An item declaring group g with explicit strategy free. -/
def itemT3 : Item := ⟨"t3", some "g", some "free"⟩

/-- Two free batches of one and two items, for the sequential path. -/
def bsSeq : Batches := [("a", ⟨"free", [itemA, itemB]⟩), ("b", ⟨"free", [itemC]⟩)]

/-- A free batch followed (in plan order) by a batch with an unknown
strategy. -/
def bsUnknown : Batches := [("a", ⟨"free", [itemA]⟩), ("b", ⟨"weird", [itemB]⟩)]

/-! ### Theorems -/

/-- C6: the shared failed flag is set only by a failed report of the call
phase, is never reset once true, equals at run end whether some report
failed in its call phase, and a true flag marks the session failed. -/
theorem failed_flag_call_phase_only_aux (rs : List Report) :
    ∀ b : Bool, rs.foldl pytest_runtest_logreport b
      = (b || rs.any fun r => r.failed && (r.phase == "call")) := by
  induction rs with
  | nil => intro b; simp
  | cons r rest ih =>
      intro b
      have hstep : pytest_runtest_logreport b r
          = (b || (r.failed && (r.phase == "call"))) := by
        cases b <;> cases hf : r.failed <;>
          simp [pytest_runtest_logreport, hf] <;>
          by_cases hp : r.phase == "call" <;> simp_all
      simp only [List.foldl_cons, ih, hstep, List.any_cons]
      cases b <;> simp

/-- C6: the shared failed flag is set to true only by a report that is
failed and in the primary (call) phase, never reset afterwards, and at run
end it is true iff some observed report failed in its call phase, in which
case session.testsfailed is set. -/
theorem failed_flag_call_phase_semantics :
    (∀ r : Report, pytest_runtest_logreport true r = true) ∧
    (∀ r : Report, pytest_runtest_logreport false r
        = (r.failed && (r.phase == "call"))) ∧
    (∀ rs : List Report, observeReports rs
        = rs.any fun r => r.failed && (r.phase == "call")) ∧
    (∀ tf : Bool, sessionTestsfailed tf true = true) := by
  refine ⟨?_, ?_, ?_, ?_⟩
  · intro r; simp [pytest_runtest_logreport]
  · intro r
    cases hf : r.failed <;> simp [pytest_runtest_logreport, hf] <;>
      by_cases hp : r.phase == "call" <;> simp_all
  · intro rs
    simpa using failed_flag_call_phase_only_aux rs false
  · intro tf; simp [sessionTestsfailed]

/-- C8 (counterexample): a tick that reaps the single live worker leaves
the registry empty but does not raise the drained signal on that same
tick, because the signal is decided from the pre-reap registry. -/
theorem drained_not_raised_on_reaping_tick :
    (process_loop_tick (fun _ => true) 1 ⟨[1], false, false, false⟩).1.processes = [] ∧
    (process_loop_tick (fun _ => true) 1 ⟨[1], false, false, false⟩).1.processes_empty
      = false :=
  ⟨rfl, rfl⟩

/-- The pre-reap drained-signal update of process_loop lines 257-261
equals emptiness of the pre-reap registry. -/
theorem empt_pre_reap (e : Bool) (l : List Nat) :
    (if l.isEmpty then true else if e then false else e) = l.isEmpty := by
  cases l <;> cases e <;> simp

/-- C8 (amended): each tick of process_loop decides the drained signal
from the pre-reap registry (raised iff the registry was empty at tick
start, lowered otherwise), then reaps every stopped/zombie/vanished
worker, and terminates exactly when the stop request is raised and the
post-reap registry is empty. -/
theorem tick_drained_pre_reap_and_termination (reapable : Nat → Bool)
    (num : Nat) (s : LoopState) :
    (process_loop_tick reapable num s).1.processes
        = s.processes.filter (fun p => !reapable p) ∧
    (process_loop_tick reapable num s).1.processes_empty = s.processes.isEmpty ∧
    (process_loop_tick reapable num s).2
        = (s.reap_loop && (s.processes.filter fun p => !reapable p).isEmpty) := by
  obtain ⟨ps, pe, sig, rl⟩ := s
  simp only [process_loop_tick]
  split
  next hc => exact ⟨rfl, empt_pre_reap pe ps, hc.symm⟩
  next hc =>
    refine ⟨rfl, empt_pre_reap pe ps, ?_⟩
    simp only [Bool.not_eq_true] at hc
    exact hc.symm

/-- C5: three trail starts for a fresh resource name followed by three
finishes report first exactly once (on the first start) and last exactly
once (on the final finish), and the board entry for the name is deleted at
the end. -/
theorem trail_three_start_three_finish (b0 : Board) (n : String)
    (h : b0 (consumerKey n) = none) :
    (trailRun b0 [(n, "start"), (n, "start"), (n, "start"),
                  (n, "finish"), (n, "finish"), (n, "finish")]).map
        (fun p => (p.2, p.1 (consumerKey n)))
      = .ok ([true, false, false, false, false, true], none) := by
  simp [trailRun, mp_trail, setBoard, delBoard, h, Except.map]

/-- C5 witness: the chain at the empty board and name x. -/
theorem trail_three_start_three_finish_witness :
    (trailRun (fun _ => none) [("x", "start"), ("x", "start"), ("x", "start"),
                  ("x", "finish"), ("x", "finish"), ("x", "finish")]).map
        (fun p => (p.2, p.1 (consumerKey "x")))
      = .ok ([true, false, false, false, false, true], none) :=
  trail_three_start_three_finish (fun _ => none) "x" rfl

/-- C10: a trail call whose state is neither start nor finish raises
before touching the message board, leaving it unchanged. -/
theorem trail_bad_state_errors (b : Board) (n s : String)
    (h1 : s ≠ "start") (h2 : s ≠ "finish") :
    mp_trail b n s
      = .error ("mp_trail state must be \"start\" or \"finish\": " ++ s) := by
  simp [mp_trail, h1, h2]

/-- C10 witness: the error at a concrete bad state. -/
theorem trail_bad_state_errors_witness :
    mp_trail (fun _ => none) "x" "begin"
      = .error ("mp_trail state must be \"start\" or \"finish\": " ++ "begin") :=
  trail_bad_state_errors (fun _ => none) "x" "begin" (by decide) (by decide)

/-- C9 (evaluation at the failing input): with concurrency disabled and
two batches in plan order, every item of the first batch is passed the
first item of the next batch as nextitem (final_test or next_test), not
the immediately following item of its own batch. -/
theorem nextitem_overridden_by_final_test :
    run_batched_tests bsSeq 0
      = ([.runTest itemA (some itemC), .runTest itemB (some itemC),
          .runTest itemC none], none) := rfl

/-- C7 (counterexample): with two workers batches in plan order, the item
of the earlier free batch is submitted to a worker process before the
unknown-strategy error of the later batch is raised, so the error is not
detected before any worker is spawned. -/
theorem worker_spawned_before_unknown_strategy_error :
    run_batched_tests bsUnknown 1
      = ([.submitTest itemA], some "Unknown strategy weird") := rfl

/-- C2 (counterexample): an input in which two items assign the distinct
explicit strategies (the empty string) and free to group g is classified
without error, because the intervening inheriting item rewrites the falsy
recorded strategy to free. -/
theorem conflicting_strategies_may_pass :
    batch_tests [itemT1, itemT2, itemT3]
      = .ok ⟨[("g", ⟨"free", [itemT1, itemT2, itemT3]⟩)],
             [(itemT1, "g", ""), (itemT2, "g", "free"), (itemT3, "g", "free")]⟩ := rfl

/-- C3: the execution order produced by the sort in run_batched_tests is
exactly the priority-0 batch names (free and serial), then priority 1
(isolated_free), then priority 2 (isolated_serial), then priority 3
(unknown strategies), each block keeping the original insertion order of
the batches dict: every lower-priority batch strictly precedes every
higher-priority one and ties keep discovery order. -/
theorem plan_order_stable_by_priority (bs : Batches) :
    sortedBatchNames bs
      = ((bs.map Prod.fst).filter fun n => decide (prioOf bs n = 0))
        ++ ((bs.map Prod.fst).filter fun n => decide (prioOf bs n = 1))
        ++ ((bs.map Prod.fst).filter fun n => decide (prioOf bs n = 2))
        ++ ((bs.map Prod.fst).filter fun n => decide (prioOf bs n = 3)) := by
  have hk : ∀ n, prioOf bs n ≤ 3 := fun n => strategyPriority_le_three _
  simpa [bucket, List.append_assoc] using
    stableSortBy_buckets (prioOf bs) hk (bs.map Prod.fst)

/-- C4: with the worker count 0, run_batched_tests raises nothing, emits
only in-process protocol calls (no submit_test_to_process or
submit_batch_to_process event), and executes exactly the items of the
plan-ordered batches, each batch's items in declaration order. -/
theorem sequential_run_no_workers (bs : Batches) :
    (run_batched_tests bs 0).2 = none ∧
    (run_batched_tests bs 0).1.all isRunEvent = true ∧
    runItems (run_batched_tests bs 0).1
      = ((sortedBatchNames bs).map fun b => (getBatch bs b).tests).flatten := by
  refine ⟨rfl, ?_, ?_⟩
  · simpa [run_batched_tests] using
      runSequentialBatches_all bs (sortedBatchNames bs)
  · simpa [run_batched_tests] using
      runSequentialBatches_items bs (sortedBatchNames bs)

/-- C7 (amended): with concurrency enabled, a batch whose strategy is not
one of the four recognized values makes run_batched_tests fail with the
unknown-strategy error naming that strategy; the check happens at dispatch
time when the offending batch is reached in plan order (unknown strategies
sort last), so workers of earlier batches may already have been spawned. -/
theorem unknown_strategy_errors_when_dispatching (bs : Batches) (num : Nat)
    (hnum : num ≠ 0) (g : String) (bd : BatchData)
    (hmem : (g, bd) ∈ bs) (hnd : (bs.map Prod.fst).Nodup)
    (hunk : strategyPriority bd.strategy = 3) :
    unknownStrategyError (run_batched_tests bs num).2 := by
  have hlook : lookupBatch bs g = some bd := lookup_of_mem_nodup hmem hnd
  have hgb : getBatch bs g = bd := by simp [getBatch, hlook]
  have hmem2 : g ∈ sortedBatchNames bs := by
    have h1 : g ∈ bs.map Prod.fst := List.mem_map.mpr ⟨(g, bd), hmem, rfl⟩
    exact ((stableSortBy_perm (prioOf bs) (bs.map Prod.fst)).mem_iff).mpr h1
  have h2 := dispatch_unknown bs (sortedBatchNames bs)
    ⟨g, hmem2, by rw [hgb]; exact hunk⟩
  simpa [run_batched_tests, hnum, unknownStrategyError] using h2

/-- C7 witness: the amended statement at the concrete plan with a free
batch preceding a weird-strategy batch and one worker. -/
theorem unknown_strategy_errors_when_dispatching_witness :
    unknownStrategyError (run_batched_tests bsUnknown 1).2 :=
  unknown_strategy_errors_when_dispatching bsUnknown 1 (by decide) "b"
    ⟨"weird", [itemB]⟩ (by simp [bsUnknown]) (by decide) (by decide)

/-! ### Lemmas about the batches dict operations -/

theorem map_fst_appendTest (bs : Batches) (g : String) (it : Item) :
    (appendTest bs g it).map Prod.fst = bs.map Prod.fst := by
  induction bs with
  | nil => rfl
  | cons p rest ih =>
      obtain ⟨g1, bd⟩ := p
      by_cases h : g1 = g <;> simp [appendTest, h, ih]

theorem lookup_appendTest_self (bs : Batches) (g : String) (it : Item) :
    lookupBatch (appendTest bs g it) g
      = (lookupBatch bs g).map fun bd => ⟨bd.strategy, bd.tests ++ [it]⟩ := by
  induction bs with
  | nil => rfl
  | cons p rest ih =>
      obtain ⟨g1, bd⟩ := p
      by_cases h : g1 = g <;> simp [appendTest, lookupBatch, h, ih]

theorem lookup_appendTest_ne (bs : Batches) (g : String) (it : Item)
    (g1 : String) (h : g1 ≠ g) :
    lookupBatch (appendTest bs g it) g1 = lookupBatch bs g1 := by
  induction bs with
  | nil => rfl
  | cons p rest ih =>
      obtain ⟨gh, bd⟩ := p
      by_cases h1 : gh = g
      · subst h1
        simp [appendTest, lookupBatch, Ne.symm h]
      · by_cases h2 : gh = g1
        · subst h2
          simp [appendTest, lookupBatch, h1]
        · simp [appendTest, lookupBatch, h1, h2, ih]

theorem lookup_setStrategy_self (bs : Batches) (g s : String) :
    lookupBatch (setStrategy bs g s) g
      = some ⟨s, ((lookupBatch bs g).map BatchData.tests).getD []⟩ := by
  induction bs with
  | nil => simp [setStrategy, lookupBatch]
  | cons p rest ih =>
      obtain ⟨gh, bd⟩ := p
      by_cases h : gh = g <;> simp [setStrategy, lookupBatch, h, ih]

theorem lookup_setStrategy_ne (bs : Batches) (g s g1 : String) (h : g1 ≠ g) :
    lookupBatch (setStrategy bs g s) g1 = lookupBatch bs g1 := by
  induction bs with
  | nil => simp [setStrategy, lookupBatch, Ne.symm h]
  | cons p rest ih =>
      obtain ⟨gh, bd⟩ := p
      by_cases h1 : gh = g
      · subst h1
        simp [setStrategy, lookupBatch, Ne.symm h]
      · by_cases h2 : gh = g1
        · subst h2
          simp [setStrategy, lookupBatch, h1]
        · simp [setStrategy, lookupBatch, h1, h2, ih]

theorem map_fst_setStrategy_some (bs : Batches) (g s : String)
    (h : (lookupBatch bs g).isSome) :
    (setStrategy bs g s).map Prod.fst = bs.map Prod.fst := by
  induction bs with
  | nil => simp [lookupBatch] at h
  | cons p rest ih =>
      obtain ⟨gh, bd⟩ := p
      by_cases h1 : gh = g
      · simp [setStrategy, h1]
      · simp only [lookupBatch, if_neg h1] at h
        simp [setStrategy, h1, ih h]

theorem map_fst_setStrategy_none (bs : Batches) (g s : String)
    (h : lookupBatch bs g = none) :
    (setStrategy bs g s).map Prod.fst = bs.map Prod.fst ++ [g] := by
  induction bs with
  | nil => rfl
  | cons p rest ih =>
      obtain ⟨gh, bd⟩ := p
      by_cases h1 : gh = g
      · simp [lookupBatch, h1] at h
      · simp only [lookupBatch, if_neg h1] at h
        simp [setStrategy, h1, ih h]

theorem lookup_append_single_self (bs : Batches) (g : String) (bd : BatchData)
    (h : lookupBatch bs g = none) :
    lookupBatch (bs ++ [(g, bd)]) g = some bd := by
  induction bs with
  | nil => simp [lookupBatch]
  | cons p rest ih =>
      obtain ⟨gh, bd1⟩ := p
      by_cases h1 : gh = g
      · simp [lookupBatch, h1] at h
      · simp only [lookupBatch, if_neg h1] at h
        simp [lookupBatch, h1, ih h]

theorem lookup_append_single_ne (bs : Batches) (g : String) (bd : BatchData)
    (g1 : String) (h : g1 ≠ g) :
    lookupBatch (bs ++ [(g, bd)]) g1 = lookupBatch bs g1 := by
  induction bs with
  | nil => simp [lookupBatch, Ne.symm h]
  | cons p rest ih =>
      obtain ⟨gh, bd1⟩ := p
      by_cases h1 : gh = g1
      · subst h1
        simp [lookupBatch]
      · simp [lookupBatch, h1, ih]

theorem lookup_isSome_iff_mem (bs : Batches) (g : String) :
    (lookupBatch bs g).isSome ↔ g ∈ bs.map Prod.fst := by
  induction bs with
  | nil => simp [lookupBatch]
  | cons p rest ih =>
      obtain ⟨gh, bd⟩ := p
      by_cases h1 : gh = g
      · subst h1
        simp [lookupBatch]
      · simp [lookupBatch, h1, ih, Ne.symm h1]

/-! ### Lemmas about the specification helpers -/

theorem recordedStrat_append (items : List Item) (it : Item) (g : String) :
    recordedStrat (items ++ [it]) g = stepStrat g (recordedStrat items g) it := by
  simp [recordedStrat, List.foldl_append]

theorem foldl_stepStrat_none {g : String} : ∀ (l : List Item) (c : Option String),
    l.foldl (stepStrat g) c = none → c = none ∧ ∀ it ∈ l, resolvedGroup it ≠ g := by
  intro l
  induction l with
  | nil => intro c h; simpa using h
  | cons it rest ih =>
      intro c h
      simp only [List.foldl_cons] at h
      obtain ⟨h1, h2⟩ := ih (stepStrat g c it) h
      have h3 : c = none ∧ resolvedGroup it ≠ g := by
        cases hg : it.group with
        | none =>
            by_cases hu : g = "ungrouped"
            · simp [stepStrat, hg, hu] at h1
            · simp only [stepStrat, hg, if_neg hu] at h1
              exact ⟨h1, by simp [resolvedGroup, hg]; exact fun hc => hu hc.symm⟩
        | some g1 =>
            by_cases hgg : g1 = g
            · simp [stepStrat, hg, hgg] at h1
              cases hs : it.strategy <;> simp [hs] at h1
            · simp only [stepStrat, hg, if_neg hgg] at h1
              exact ⟨h1, by simp [resolvedGroup, hg, hgg]⟩
      refine ⟨h3.1, ?_⟩
      intro x hx
      rcases List.mem_cons.mp hx with h4 | h4
      · exact h4 ▸ h3.2
      · exact h2 x h4

theorem recordedStrat_none_filter (items : List Item) (g : String)
    (h : recordedStrat items g = none) :
    items.filter (fun it => decide (resolvedGroup it = g)) = [] := by
  have h2 := (foldl_stepStrat_none items none h).2
  rw [List.filter_eq_nil_iff]
  intro it hit
  simpa using h2 it hit

theorem groupOrder_append (items : List Item) (it : Item) :
    groupOrder (items ++ [it])
      = if resolvedGroup it ∈ groupOrder items then groupOrder items
        else groupOrder items ++ [resolvedGroup it] := by
  simp [groupOrder, List.foldl_append]

theorem groupOrder_nodup_aux :
    ∀ (l : List Item) (acc : List String), acc.Nodup →
      (l.foldl (fun acc it =>
          if resolvedGroup it ∈ acc then acc else acc ++ [resolvedGroup it]) acc).Nodup := by
  intro l
  induction l with
  | nil => intro acc h; simpa using h
  | cons it rest ih =>
      intro acc h
      simp only [List.foldl_cons]
      apply ih
      by_cases hmem : resolvedGroup it ∈ acc
      · simpa [hmem] using h
      · simp [hmem, List.nodup_append, h]

theorem groupOrder_nodup (items : List Item) : (groupOrder items).Nodup :=
  groupOrder_nodup_aux items [] List.nodup_nil

theorem groupOrder_mono :
    ∀ (l : List Item) (acc : List String) (a : String), a ∈ acc →
      a ∈ l.foldl (fun acc it =>
          if resolvedGroup it ∈ acc then acc else acc ++ [resolvedGroup it]) acc := by
  intro l
  induction l with
  | nil => intro acc a h; simpa using h
  | cons it rest ih =>
      intro acc a h
      simp only [List.foldl_cons]
      apply ih
      by_cases hmem : resolvedGroup it ∈ acc <;> simp [hmem, h]

theorem mem_groupOrder :
    ∀ (l : List Item) (acc : List String) (it : Item), it ∈ l →
      resolvedGroup it ∈ l.foldl (fun acc it =>
          if resolvedGroup it ∈ acc then acc else acc ++ [resolvedGroup it]) acc := by
  intro l
  induction l with
  | nil => intro acc it h; simp at h
  | cons x rest ih =>
      intro acc it h
      rcases List.mem_cons.mp h with h1 | h1
      · subst h1
        simp only [List.foldl_cons]
        apply groupOrder_mono
        by_cases hmem : resolvedGroup it ∈ acc <;> simp [hmem]
      · exact ih _ it h1

theorem stampedFrom_append (p : List Item) (xs : List Item) (it : Item) :
    stampedFrom p (xs ++ [it])
      = stampedFrom p xs ++ [(it, resolvedGroup it, stampStrat (p ++ xs) it)] := by
  induction xs generalizing p with
  | nil => simp [stampedFrom]
  | cons x xs ih =>
      show (x, resolvedGroup x, stampStrat p x) :: stampedFrom (p ++ [x]) (xs ++ [it])
          = (x, resolvedGroup x, stampStrat p x)
            :: (stampedFrom (p ++ [x]) xs
                ++ [(it, resolvedGroup it, stampStrat (p ++ x :: xs) it)])
      rw [ih (p ++ [x])]
      simp [List.append_assoc]

/-! ### The classifier loop invariant -/

/-- The loop invariant of batch_tests: after an error-free pass over pre,
the stamps are exactly the specified ones, the batch names are the groups
in first-occurrence order, and each entry holds the recorded strategy and
the items of its group in discovery order. -/
def Inv (pre : List Item) (st : BState) : Prop :=
  st.stamped = stampedFrom [] pre ∧
  st.batches.map Prod.fst = groupOrder pre ∧
  ∀ g, lookupBatch st.batches g
      = (recordedStrat pre g).map fun s =>
          ⟨s, pre.filter fun it => decide (resolvedGroup it = g)⟩

theorem inv_nil : Inv [] ⟨[], []⟩ := ⟨rfl, rfl, fun _ => rfl⟩

theorem stepStrat_other {g : String} {it : Item} (cur : Option String)
    (hne : resolvedGroup it ≠ g) :
    stepStrat g cur it = cur := by
  cases hgi : it.group with
  | none =>
      have h1 : g ≠ "ungrouped" := by
        simp only [resolvedGroup, hgi] at hne
        exact Ne.symm hne
      simp [stepStrat, hgi, h1]
  | some g1 =>
      have h1 : g1 ≠ g := by simpa [resolvedGroup, hgi] using hne
      simp [stepStrat, hgi, h1]

theorem inv_lookup_ne_step {pre : List Item} {it : Item} (g tgt : String)
    (hne : g ≠ tgt) (hres : resolvedGroup it = tgt) :
    ((recordedStrat (pre ++ [it]) g).map fun s =>
        (⟨s, (pre ++ [it]).filter fun x => decide (resolvedGroup x = g)⟩ : BatchData))
      = (recordedStrat pre g).map fun s =>
          ⟨s, pre.filter fun x => decide (resolvedGroup x = g)⟩ := by
  rw [recordedStrat_append,
      stepStrat_other _ (by rw [hres]; exact Ne.symm hne)]
  simp [List.filter_append, hres, Ne.symm hne]

theorem processItem_inv {pre : List Item} {st : BState} {it : Item} {st1 : BState}
    (hInv : Inv pre st) (h : processItem st it = .ok st1) :
    Inv (pre ++ [it]) st1 := by
  obtain ⟨hst, hkeys, hlook⟩ := hInv
  cases hg : it.group with
  | none =>
      have hres : resolvedGroup it = "ungrouped" := by simp [resolvedGroup, hg]
      by_cases hu : (lookupBatch st.batches "ungrouped").isSome
      · obtain ⟨bd, hbd⟩ := Option.isSome_iff_exists.mp hu
        have hl := hlook "ungrouped"
        rw [hbd] at hl
        obtain ⟨s0, hs0, hFs0⟩ := Option.map_eq_some'.mp hl.symm
        subst hFs0
        have hmemg : "ungrouped" ∈ groupOrder pre := by
          rw [← hkeys]; exact (lookup_isSome_iff_mem _ _).mp hu
        simp [processItem, hg, hu] at h
        subst h
        refine ⟨?_, ?_, ?_⟩
        · show st.stamped ++ [(it, "ungrouped", "free")] = _
          rw [hst, stampedFrom_append]
          simp [stampStrat, hg, hres]
        · show (appendTest st.batches "ungrouped" it).map Prod.fst = _
          rw [map_fst_appendTest, hkeys, groupOrder_append, hres, if_pos hmemg]
        · intro g
          by_cases hgu : g = "ungrouped"
          · subst hgu
            show lookupBatch (appendTest st.batches "ungrouped" it) "ungrouped" = _
            rw [lookup_appendTest_self, hbd, recordedStrat_append, hs0]
            simp [stepStrat, hg, List.filter_append, hres]
          · show lookupBatch (appendTest st.batches "ungrouped" it) g = _
            rw [lookup_appendTest_ne _ _ _ _ hgu, hlook g]
            exact (inv_lookup_ne_step g "ungrouped" hgu hres).symm
      · have hnone : lookupBatch st.batches "ungrouped" = none :=
          Option.not_isSome_iff_eq_none.mp hu
        have hl := hlook "ungrouped"
        rw [hnone] at hl
        have hrecn : recordedStrat pre "ungrouped" = none :=
          Option.map_eq_none'.mp hl.symm
        have hfil := recordedStrat_none_filter pre "ungrouped" hrecn
        have hnm : "ungrouped" ∉ groupOrder pre := by
          rw [← hkeys]
          intro hc
          have h2 := (lookup_isSome_iff_mem st.batches "ungrouped").mpr hc
          rw [hnone] at h2
          simp at h2
        simp [processItem, hg, hnone] at h
        subst h
        refine ⟨?_, ?_, ?_⟩
        · show st.stamped ++ [(it, "ungrouped", "free")] = _
          rw [hst, stampedFrom_append]
          simp [stampStrat, hg, hres]
        · show (appendTest (st.batches ++ [("ungrouped", ⟨"free", []⟩)])
              "ungrouped" it).map Prod.fst = _
          rw [map_fst_appendTest, groupOrder_append, hres, if_neg hnm, ← hkeys]
          simp
        · intro g
          by_cases hgu : g = "ungrouped"
          · subst hgu
            show lookupBatch (appendTest (st.batches ++ [("ungrouped", ⟨"free", []⟩)])
                "ungrouped" it) "ungrouped" = _
            rw [lookup_appendTest_self, lookup_append_single_self _ _ _ hnone,
                recordedStrat_append, hrecn]
            simp [stepStrat, hg, List.filter_append, hres, hfil]
          · show lookupBatch (appendTest (st.batches ++ [("ungrouped", ⟨"free", []⟩)])
                "ungrouped" it) g = _
            rw [lookup_appendTest_ne _ _ _ _ hgu,
                lookup_append_single_ne _ _ _ _ hgu, hlook g]
            exact (inv_lookup_ne_step g "ungrouped" hgu hres).symm
  | some g0 =>
      have hres : resolvedGroup it = g0 := by simp [resolvedGroup, hg]
      cases hs : it.strategy with
      | none =>
          have hmapstrat : (lookupBatch st.batches g0).map BatchData.strategy
              = recordedStrat pre g0 := by
            rw [hlook g0]
            cases recordedStrat pre g0 <;> rfl
          simp only [processItem, hg] at h
          rw [hs] at h
          simp only [hmapstrat] at h
          rw [Except.ok.injEq] at h
          subst h
          cases hlb : lookupBatch st.batches g0 with
          | some bd =>
              have hl := hlook g0
              rw [hlb] at hl
              obtain ⟨s0, hs0, hFs0⟩ := Option.map_eq_some'.mp hl.symm
              subst hFs0
              have hisme : (lookupBatch st.batches g0).isSome := by simp [hlb]
              have hmemg : g0 ∈ groupOrder pre := by
                rw [← hkeys]; exact (lookup_isSome_iff_mem _ _).mp hisme
              refine ⟨?_, ?_, ?_⟩
              · show st.stamped ++ [(it, g0, inheritOf (recordedStrat pre g0))] = _
                rw [hst, stampedFrom_append]
                simp [stampStrat, hg, hs, hres]
              · show (appendTest (setStrategy st.batches g0 _) g0 it).map Prod.fst = _
                rw [map_fst_appendTest, map_fst_setStrategy_some _ _ _ hisme,
                    hkeys, groupOrder_append, hres, if_pos hmemg]
              · intro g
                by_cases hgg : g = g0
                · subst hgg
                  show lookupBatch (appendTest (setStrategy st.batches g _) g it) g = _
                  rw [lookup_appendTest_self, lookup_setStrategy_self, hlb,
                      recordedStrat_append, hs0]
                  simp [stepStrat, hg, hs, List.filter_append, hres]
                · show lookupBatch (appendTest (setStrategy st.batches g0 _) g0 it) g = _
                  rw [lookup_appendTest_ne _ _ _ _ hgg,
                      lookup_setStrategy_ne _ _ _ _ hgg, hlook g]
                  exact (inv_lookup_ne_step g g0 hgg hres).symm
          | none =>
              have hl := hlook g0
              rw [hlb] at hl
              have hrecn : recordedStrat pre g0 = none := Option.map_eq_none'.mp hl.symm
              have hfil := recordedStrat_none_filter pre g0 hrecn
              have hnm : g0 ∉ groupOrder pre := by
                rw [← hkeys]
                intro hc
                have h2 := (lookup_isSome_iff_mem st.batches g0).mpr hc
                rw [hlb] at h2
                simp at h2
              refine ⟨?_, ?_, ?_⟩
              · show st.stamped ++ [(it, g0, inheritOf (recordedStrat pre g0))] = _
                rw [hst, stampedFrom_append]
                simp [stampStrat, hg, hs, hres]
              · show (appendTest (setStrategy st.batches g0 _) g0 it).map Prod.fst = _
                rw [map_fst_appendTest, map_fst_setStrategy_none _ _ _ hlb,
                    hkeys, groupOrder_append, hres, if_neg hnm]
              · intro g
                by_cases hgg : g = g0
                · subst hgg
                  show lookupBatch (appendTest (setStrategy st.batches g _) g it) g = _
                  rw [lookup_appendTest_self, lookup_setStrategy_self, hlb,
                      recordedStrat_append, hrecn]
                  simp [stepStrat, hg, hs, List.filter_append, hres, hfil, hrecn]
                · show lookupBatch (appendTest (setStrategy st.batches g0 _) g0 it) g = _
                  rw [lookup_appendTest_ne _ _ _ _ hgg,
                      lookup_setStrategy_ne _ _ _ _ hgg, hlook g]
                  exact (inv_lookup_ne_step g g0 hgg hres).symm
      | some s1 =>
          cases hlb : lookupBatch st.batches g0 with
          | some bd =>
              have hl := hlook g0
              rw [hlb] at hl
              obtain ⟨s0, hs0, hFs0⟩ := Option.map_eq_some'.mp hl.symm
              subst hFs0
              by_cases hss : s0 = s1
              · subst hss
                simp [processItem, hg, hs, hlb] at h
                subst h
                have hisme : (lookupBatch st.batches g0).isSome := by simp [hlb]
                have hmemg : g0 ∈ groupOrder pre := by
                  rw [← hkeys]; exact (lookup_isSome_iff_mem _ _).mp hisme
                refine ⟨?_, ?_, ?_⟩
                · show st.stamped ++ [(it, g0, s0)] = _
                  rw [hst, stampedFrom_append]
                  simp [stampStrat, hg, hs, hres]
                · show (appendTest (setStrategy st.batches g0 s0) g0 it).map Prod.fst = _
                  rw [map_fst_appendTest, map_fst_setStrategy_some _ _ _ hisme,
                      hkeys, groupOrder_append, hres, if_pos hmemg]
                · intro g
                  by_cases hgg : g = g0
                  · subst hgg
                    show lookupBatch (appendTest (setStrategy st.batches g s0) g it) g = _
                    rw [lookup_appendTest_self, lookup_setStrategy_self, hlb,
                        recordedStrat_append, hs0]
                    simp [stepStrat, hg, hs, List.filter_append, hres]
                  · show lookupBatch (appendTest (setStrategy st.batches g0 s0) g0 it) g = _
                    rw [lookup_appendTest_ne _ _ _ _ hgg,
                        lookup_setStrategy_ne _ _ _ _ hgg, hlook g]
                    exact (inv_lookup_ne_step g g0 hgg hres).symm
              · simp [processItem, hg, hs, hlb, hss] at h
          | none =>
              simp [processItem, hg, hs, hlb] at h
              subst h
              have hl := hlook g0
              rw [hlb] at hl
              have hrecn : recordedStrat pre g0 = none := Option.map_eq_none'.mp hl.symm
              have hfil := recordedStrat_none_filter pre g0 hrecn
              have hnm : g0 ∉ groupOrder pre := by
                rw [← hkeys]
                intro hc
                have h2 := (lookup_isSome_iff_mem st.batches g0).mpr hc
                rw [hlb] at h2
                simp at h2
              refine ⟨?_, ?_, ?_⟩
              · show st.stamped ++ [(it, g0, s1)] = _
                rw [hst, stampedFrom_append]
                simp [stampStrat, hg, hs, hres]
              · show (appendTest (setStrategy st.batches g0 s1) g0 it).map Prod.fst = _
                rw [map_fst_appendTest, map_fst_setStrategy_none _ _ _ hlb,
                    hkeys, groupOrder_append, hres, if_neg hnm]
              · intro g
                by_cases hgg : g = g0
                · subst hgg
                  show lookupBatch (appendTest (setStrategy st.batches g s1) g it) g = _
                  rw [lookup_appendTest_self, lookup_setStrategy_self, hlb,
                      recordedStrat_append, hrecn]
                  simp [stepStrat, hg, hs, List.filter_append, hres, hfil]
                · show lookupBatch (appendTest (setStrategy st.batches g0 s1) g0 it) g = _
                  rw [lookup_appendTest_ne _ _ _ _ hgg,
                      lookup_setStrategy_ne _ _ _ _ hgg, hlook g]
                  exact (inv_lookup_ne_step g g0 hgg hres).symm

theorem batchLoop_inv : ∀ (l pre : List Item) (st st1 : BState),
    Inv pre st → batchLoop st l = .ok st1 → Inv (pre ++ l) st1 := by
  intro l
  induction l with
  | nil =>
      intro pre st st1 h hb
      simp only [batchLoop] at hb
      rw [Except.ok.injEq] at hb
      subst hb
      simpa using h
  | cons it rest ih =>
      intro pre st st1 h hb
      cases hp : processItem st it with
      | error e => simp [batchLoop, hp] at hb
      | ok st2 =>
          simp only [batchLoop, hp] at hb
          have h3 := ih (pre ++ [it]) st2 st1 (processItem_inv h hp) hb
          simpa [List.append_assoc] using h3

theorem batchLoop_split : ∀ (l1 l2 : List Item) (st st2 : BState),
    batchLoop st (l1 ++ l2) = .ok st2 →
    ∃ mid, batchLoop st l1 = .ok mid ∧ batchLoop mid l2 = .ok st2 := by
  intro l1
  induction l1 with
  | nil => intro l2 st st2 h; exact ⟨st, rfl, by simpa using h⟩
  | cons it rest ih =>
      intro l2 st st2 h
      cases hp : processItem st it with
      | error e => simp [batchLoop, hp] at h
      | ok stm =>
          simp only [List.cons_append, batchLoop, hp] at h ⊢
          exact ih l2 stm st2 h

theorem processItem_error_shape {st : BState} {it : Item} {e : String}
    (h : processItem st it = .error e) : ∃ g s, e = conflictMsg g s := by
  cases hg : it.group with
  | none => simp [processItem, hg] at h
  | some g0 =>
      cases hs : it.strategy with
      | none => simp [processItem, hg, hs] at h
      | some s1 =>
          cases hlb : lookupBatch st.batches g0 with
          | none => simp [processItem, hg, hs, hlb] at h
          | some bd =>
              by_cases hss : bd.strategy = s1
              · simp [processItem, hg, hs, hlb, hss] at h
              · simp [processItem, hg, hs, hlb, hss] at h
                exact ⟨g0, bd.strategy, h.symm⟩

theorem batchLoop_error_shape : ∀ (l : List Item) (st : BState) (e : String),
    batchLoop st l = .error e → ∃ g s, e = conflictMsg g s := by
  intro l
  induction l with
  | nil => intro st e h; simp [batchLoop] at h
  | cons it rest ih =>
      intro st e h
      cases hp : processItem st it with
      | error e1 =>
          simp only [batchLoop, hp] at h
          rw [Except.error.injEq] at h
          exact h ▸ processItem_error_shape hp
      | ok st2 =>
          simp only [batchLoop, hp] at h
          exact ih st2 e h

theorem recorded_pinned : ∀ (l : List Item) (st st1 : BState) (pre : List Item)
    (g s : String), Inv pre st → recordedStrat pre g = some s → s ≠ "" →
    batchLoop st l = .ok st1 → recordedStrat (pre ++ l) g = some s := by
  intro l
  induction l with
  | nil =>
      intro st st1 pre g s _ hrec _ _
      simpa using hrec
  | cons it rest ih =>
      intro st st1 pre g s hInv hrec hs hb
      cases hp : processItem st it with
      | error e => simp [batchLoop, hp] at hb
      | ok st2 =>
          simp only [batchLoop, hp] at hb
          have hrec2 : recordedStrat (pre ++ [it]) g = some s := by
            rw [recordedStrat_append, hrec]
            cases hgi : it.group with
            | none =>
                by_cases hgu : g = "ungrouped" <;> simp [stepStrat, hgi, hgu]
            | some g1 =>
                by_cases hgg : g1 = g
                · subst hgg
                  cases hsi : it.strategy with
                  | none => simp [stepStrat, hgi, hsi, inheritOf, hs]
                  | some s2 =>
                      have hl := hInv.2.2 g1
                      rw [hrec] at hl
                      have hok : s2 = s := by
                        by_contra hne
                        simp [processItem, hgi, hsi, hl, Ne.symm hne] at hp
                      subst hok
                      simp [stepStrat, hgi, hsi]
                · simp [stepStrat, hgi, hgg]
          have h3 := ih st2 st1 (pre ++ [it]) g s (processItem_inv hInv hp) hrec2 hs hb
          simpa [List.append_assoc] using h3

theorem batches_eq_of : ∀ (bs : Batches) (G : List String) (F : String → BatchData),
    bs.map Prod.fst = G → G.Nodup →
    (∀ g ∈ G, lookupBatch bs g = some (F g)) →
    bs = G.map fun g => (g, F g) := by
  intro bs
  induction bs with
  | nil =>
      intro G F hk _ _
      simp only [List.map_nil] at hk
      rw [← hk]
      rfl
  | cons p rest ih =>
      intro G F hk hnd hl
      obtain ⟨g0, bd0⟩ := p
      cases G with
      | nil => simp at hk
      | cons gh G1 =>
          simp only [List.map_cons, List.cons.injEq] at hk
          obtain ⟨hg0, hrest⟩ := hk
          subst hg0
          simp only [List.nodup_cons] at hnd
          have hbd0 : bd0 = F g0 := by
            have h1 := hl g0 (by simp)
            simpa [lookupBatch] using h1
          have hl1 : ∀ g ∈ G1, lookupBatch rest g = some (F g) := by
            intro g hgmem
            have hne : g0 ≠ g := by
              intro he; subst he; exact hnd.1 hgmem
            have h1 := hl g (by simp [hgmem])
            simpa [lookupBatch, hne] using h1
          rw [hbd0, ih G1 F hrest hnd.2 hl1]
          simp

theorem sum_single_of_nodup : ∀ (G : List String) (g0 : String) (c : Nat),
    G.Nodup → g0 ∈ G → (G.map fun g => if g0 = g then c else 0).sum = c := by
  intro G
  induction G with
  | nil => intro g0 c _ h; simp at h
  | cons gh G1 ih =>
      intro g0 c hnd hmem
      simp only [List.map_cons, List.sum_cons]
      simp only [List.nodup_cons] at hnd
      by_cases he : g0 = gh
      · subst he
        have hz : (G1.map fun g => if g0 = g then c else 0).sum = 0 := by
          apply List.sum_eq_zero
          intro x hx
          simp only [List.mem_map] at hx
          obtain ⟨g, hgmem, hgx⟩ := hx
          have hne : g0 ≠ g := fun hc => hnd.1 (hc ▸ hgmem)
          rw [if_neg hne] at hgx
          exact hgx.symm
        rw [if_pos rfl, hz]
        omega
      · have hmem1 : g0 ∈ G1 := by
          rcases List.mem_cons.mp hmem with h | h
          · exact absurd h he
          · exact h
        rw [if_neg he, ih g0 c hnd.2 hmem1]
        omega

theorem perm_flatten_filter (items : List Item) (G : List String)
    (hnd : G.Nodup) (hcomp : ∀ it ∈ items, resolvedGroup it ∈ G) :
    (G.map fun g =>
        items.filter fun it => decide (resolvedGroup it = g)).flatten.Perm items := by
  rw [List.perm_iff_count]
  intro x
  rw [List.count_flatten, List.map_map]
  have hterm : ∀ g : String,
      (items.filter fun it => decide (resolvedGroup it = g)).count x
        = if resolvedGroup x = g then items.count x else 0 := by
    intro g
    by_cases hp : resolvedGroup x = g
    · rw [if_pos hp, List.count_filter (by simp [hp])]
    · rw [if_neg hp]
      rw [List.count_eq_zero]
      intro hc
      exact hp (by simpa using (List.mem_filter.mp hc).2)
  rw [List.map_congr_left fun g _ => by
    show ((items.filter fun it => decide (resolvedGroup it = g)).count x) = _
    exact hterm g]
  by_cases hx : x ∈ items
  · exact sum_single_of_nodup G (resolvedGroup x) (items.count x) hnd (hcomp x hx)
  · have hc0 : items.count x = 0 := List.count_eq_zero.mpr hx
    rw [hc0]
    apply List.sum_eq_zero
    intro y hy
    simp only [List.mem_map] at hy
    obtain ⟨g, _, hgy⟩ := hy
    simpa using hgy.symm

/-- C1: on an error-free run, batch_tests stamps every item with its
resolved (group, strategy) pair (group annotation or "ungrouped", explicit
strategy or the inherited recorded strategy defaulting to free), keys the
batches by the groups in first-occurrence order without duplicates, stores
in each batch exactly the items resolving to its name in discovery order
together with the recorded strategy, and the union of all batches is a
permutation of the input items: every item lands in exactly one batch. -/
theorem batch_tests_partitions_and_stamps (items : List Item) (st : BState)
    (h : batch_tests items = .ok st) :
    st.stamped = stampedFrom [] items ∧
    st.batches.map Prod.fst = groupOrder items ∧
    (st.batches.map Prod.fst).Nodup ∧
    (∀ g, lookupBatch st.batches g
        = (recordedStrat items g).map fun s =>
            ⟨s, items.filter fun it => decide (resolvedGroup it = g)⟩) ∧
    (∀ it ∈ items, resolvedGroup it ∈ st.batches.map Prod.fst) ∧
    (st.batches.map fun e => e.2.tests).flatten.Perm items := by
  have hInv : Inv items st := by
    have h2 := batchLoop_inv items [] ⟨[], []⟩ st inv_nil h
    simpa using h2
  obtain ⟨h1, h2, h3⟩ := hInv
  have hnd : (st.batches.map Prod.fst).Nodup := by
    rw [h2]; exact groupOrder_nodup items
  have hmem : ∀ it ∈ items, resolvedGroup it ∈ st.batches.map Prod.fst := by
    intro it hit; rw [h2]; exact mem_groupOrder items [] it hit
  refine ⟨h1, h2, hnd, h3, hmem, ?_⟩
  have hFdef : ∀ g ∈ groupOrder items, lookupBatch st.batches g
      = some ⟨(recordedStrat items g).getD "free",
              items.filter fun it => decide (resolvedGroup it = g)⟩ := by
    intro g hg
    have hsome : (lookupBatch st.batches g).isSome := by
      rw [lookup_isSome_iff_mem, h2]; exact hg
    rw [h3 g] at hsome ⊢
    cases hr : recordedStrat items g with
    | none => rw [hr] at hsome; simp at hsome
    | some s => simp
  have hb := batches_eq_of st.batches (groupOrder items)
      (fun g => ⟨(recordedStrat items g).getD "free",
                 items.filter fun it => decide (resolvedGroup it = g)⟩)
      h2 (groupOrder_nodup items) hFdef
  rw [hb, List.map_map]
  have hcomp : ((fun e : String × BatchData => e.2.tests) ∘ fun g =>
      ((g, ⟨(recordedStrat items g).getD "free",
            items.filter fun it => decide (resolvedGroup it = g)⟩) : String × BatchData))
      = fun g => items.filter fun it => decide (resolvedGroup it = g) := rfl
  rw [hcomp]
  exact perm_flatten_filter items (groupOrder items) (groupOrder_nodup items)
    (fun it hit => mem_groupOrder items [] it hit)

/-- The classifier state produced for the items A (ungrouped), B (group g,
serial), C (group g, inherited). -/
def stW : BState :=
  ⟨[("ungrouped", ⟨"free", [itemA]⟩), ("g", ⟨"serial", [itemB, itemC]⟩)],
   [(itemA, "ungrouped", "free"), (itemB, "g", "serial"), (itemC, "g", "serial")]⟩

/-- C1 witness: the partition and stamping facts at a concrete run. -/
theorem batch_tests_partitions_and_stamps_witness :
    stW.stamped = stampedFrom [] [itemA, itemB, itemC] ∧
    lookupBatch stW.batches "g"
      = (recordedStrat [itemA, itemB, itemC] "g").map (fun s =>
          ⟨s, [itemA, itemB, itemC].filter fun it => decide (resolvedGroup it = "g")⟩) ∧
    (stW.batches.map fun e => e.2.tests).flatten.Perm [itemA, itemB, itemC] := by
  have h := batch_tests_partitions_and_stamps [itemA, itemB, itemC] stW rfl
  exact ⟨h.1, h.2.2.2.1 "g", h.2.2.2.2.2⟩

/-- C1 (counterexample to the inheritance clause as stated): after an item
declares the explicit falsy empty-string strategy for group g, the strategy
already recorded for g is the empty string, yet the next inheriting item of
g is stamped free (the expression recorded or free), not the recorded
empty string, and the recorded strategy is rewritten to free. -/
theorem inherit_rewrites_falsy_strategy :
    recordedStrat [itemT1] "g" = some "" ∧
    batch_tests [itemT1, itemT2]
      = .ok ⟨[("g", ⟨"free", [itemT1, itemT2]⟩)],
             [(itemT1, "g", ""), (itemT2, "g", "free")]⟩ :=
  ⟨rfl, rfl⟩

/-- Whether classification failed with the strategy-conflict error, which
names the offending batch and its recorded strategy. -/
def conflictError (o : Except String BState) : Prop :=
  ∃ g s, o = .error (conflictMsg g s)

/-- C2 (amended): two items assigning different explicit non-empty
strategies to the same group name make batch_tests fail with the conflict
error naming a batch, regardless of declaration order (the order is
covered by the symmetric quantification over the two strategies). Without
the non-emptiness condition the claim fails, see the counterexample. -/
theorem conflicting_nonempty_strategies_rejected
    (l1 l2 l3 : List Item) (g s1 s2 : String) (it1 it2 : Item)
    (hg1 : it1.group = some g) (hs1 : it1.strategy = some s1)
    (hg2 : it2.group = some g) (hs2 : it2.strategy = some s2)
    (hne : s1 ≠ s2) (h1e : s1 ≠ "") (h2e : s2 ≠ "") :
    conflictError (batch_tests (l1 ++ it1 :: (l2 ++ it2 :: l3))) := by
  cases hres : batch_tests (l1 ++ it1 :: (l2 ++ it2 :: l3)) with
  | error e =>
      obtain ⟨gx, sx, hx⟩ := batchLoop_error_shape _ _ _ hres
      exact ⟨gx, sx, by rw [hx]⟩
  | ok st =>
      exfalso
      unfold batch_tests at hres
      obtain ⟨m1, hm1, hrest1⟩ := batchLoop_split l1 _ _ _ hres
      have inv1 : Inv l1 m1 := by
        have h0 := batchLoop_inv l1 [] ⟨[], []⟩ m1 inv_nil hm1
        simpa using h0
      rw [show it1 :: (l2 ++ it2 :: l3) = [it1] ++ (l2 ++ it2 :: l3) from rfl] at hrest1
      obtain ⟨m2, hm2, hrest2⟩ := batchLoop_split [it1] _ _ _ hrest1
      have inv2 : Inv (l1 ++ [it1]) m2 := batchLoop_inv [it1] l1 m1 m2 inv1 hm2
      have hrec2 : recordedStrat (l1 ++ [it1]) g = some s1 := by
        rw [recordedStrat_append]
        simp [stepStrat, hg1, hs1]
      obtain ⟨m3, hm3, hrest3⟩ := batchLoop_split l2 _ _ _ hrest2
      have inv3 : Inv ((l1 ++ [it1]) ++ l2) m3 :=
        batchLoop_inv l2 (l1 ++ [it1]) m2 m3 inv2 hm3
      have hrec3 : recordedStrat ((l1 ++ [it1]) ++ l2) g = some s1 :=
        recorded_pinned l2 m2 m3 (l1 ++ [it1]) g s1 inv2 hrec2 h1e hm3
      have hl := inv3.2.2 g
      rw [hrec3] at hl
      cases hp2 : processItem m3 it2 with
      | error e => simp [batchLoop, hp2] at hrest3
      | ok m4 => simp [processItem, hg2, hs2, hl, hne] at hp2

/-- C2 witness: serial then free declared for group g is rejected. -/
theorem conflicting_nonempty_strategies_rejected_witness :
    conflictError (batch_tests ([] ++ itemB :: ([] ++ itemT3 :: []))) :=
  conflicting_nonempty_strategies_rejected [] [] [] "g" "serial" "free" itemB itemT3
    rfl rfl rfl rfl (by decide) (by decide) (by decide)

end PytestMp
